import Mathlib

/-!
Verification of the frequency-scoring core of the megasena-2025-analysis
repository: a shallow embedding of `src/frequency_calculator.py` and of the
consensus part of `src/output_formatter.py`, followed by theorems about the
embedded definitions.

Modelling conventions:
* A Python `Dict[str, str]` draw record becomes an association list
  `Row := List (String × String)`; lookup takes the first matching key.
* `Counter` / `defaultdict` become association lists updated in place, which
  preserves Python's dict insertion order (existing keys keep their slot, new
  keys are appended at the end).
* Exact-count strategies return rational scores (their float values are
  integers, so arithmetic is exact); the weighted strategy returns real
  scores because it uses `math.exp`.
* `sorted(..., reverse=True)` (a stable descending sort) is modelled by an
  insertion sort that moves an element only past strictly greater keys, which
  is stable and sorts descending, hence produces the same list.
* Python `set` iteration order is unspecified; it is determinised here as
  first-occurrence order (`List.dedup` keeps one copy per element).
-/

namespace MegaSena

/-- Python whitespace characters stripped by `int(str)`. -/
def pySpace (c : Char) : Bool :=
  c = ' ' || c = '\t' || c = '\n' || c = '\r' || c = '\x0b' || c = '\x0c'

/-- Value of a decimal digit character, if it is one. -/
def decDigit? (c : Char) : Option Nat :=
  if c.isDigit then some (c.toNat - 48) else none

/-- Digit run with optional single underscores between digits,
accumulated left to right (models the digit part of Python `int(str)`). -/
def digitsAux (acc : Nat) : List Char → Option Nat
  | [] => some acc
  | c :: cs =>
    if c = '_' then
      match cs with
      | [] => none
      | d :: _ => if d.isDigit then digitsAux acc cs else none
    else
      match decDigit? c with
      | some d => digitsAux (10 * acc + d) cs
      | none => none

/-- Nonempty digit run (must start with a digit). -/
def parseDigits : List Char → Option Nat
  | [] => none
  | c :: cs => if c.isDigit then digitsAux 0 (c :: cs) else none

/-- Models Python `int(s)` on the characters of a string: strip surrounding
whitespace, optional sign, then a nonempty run of decimal digits
(underscores allowed between digits); `none` models a raised `ValueError`. -/
def pyIntChars? (cs0 : List Char) : Option Int :=
  let cs := ((cs0.dropWhile pySpace).reverse.dropWhile pySpace).reverse
  match cs with
  | '+' :: rest => (parseDigits rest).map Int.ofNat
  | '-' :: rest => (parseDigits rest).map (fun n => -(n : Int))
  | rest => (parseDigits rest).map Int.ofNat

/-- Models Python `int(s)` on a string. -/
def pyInt? (s : String) : Option Int :=
  pyIntChars? s.data

/-- A draw record: one CSV row as a key/value association list. -/
abbrev Row := List (String × String)

/-- A score map with exact (rational) values, as produced by the Simple and
Recent-only strategies. -/
abbrev ScoreMap := List (Int × ℚ)

/-- A score map with real values, as produced by the Weighted strategy. -/
abbrev ScoreMapR := List (Int × ℝ)

/-- Python `row[col]` on a dict modelled as an association list; `none`
models a raised `KeyError`. -/
def dictGet? (row : Row) (k : String) : Option String :=
  (row.find? (fun kv => kv.1 == k)).map (fun kv => kv.2)

/-- The six ball columns scanned by every strategy (`BALL_COLUMNS`). -/
def BALL_COLUMNS : List String :=
  ["bola 1", "bola 2", "bola 3", "bola 4", "bola 5", "bola 6"]

/-- The ball values of one row that parse: `int(row[col])` per column, with
`ValueError` / `KeyError` silently skipped (the shared `try`/`except` loop
body of the three `calculate` methods). -/
def extractCells (row : Row) : List Int :=
  BALL_COLUMNS.filterMap (fun col => (dictGet? row col).bind pyInt?)

/-- Models `Counter[k] += 1` on a counter modelled as an association list: an
existing key keeps its position, a new key is appended. -/
def counterAdd (m : List (Int × Nat)) (k : Int) : List (Int × Nat) :=
  match m with
  | [] => [(k, 1)]
  | p :: t => if p.1 = k then (p.1, p.2 + 1) :: t else p :: counterAdd t k

/-- The counting loop shared by `SimpleFrequencyStrategy.calculate` and
`RecentOnlyStrategy.calculate`: bump the counter once per parsed cell,
rows in order, columns in order. -/
def countCells (rows : List Row) : List (Int × Nat) :=
  rows.foldl (fun acc row => (extractCells row).foldl counterAdd acc) []

/-- Models the comprehension turning the counter into float scores. -/
def counterToScores (m : List (Int × Nat)) : ScoreMap :=
  m.map (fun p => (p.1, (p.2 : ℚ)))

/-- Embeds `SimpleFrequencyStrategy.calculate`: plain frequency count of all parsed
ball cells, converted to float scores. -/
def SimpleFrequencyStrategy.calculate (draws : List Row) : ScoreMap :=
  counterToScores (countCells draws)

/-- Python `draws[-n:] if len(draws) >= n else draws` for a non-negative `n`
(`draws[-0:]` is the whole list). -/
def pySliceLast (draws : List Row) (n : Nat) : List Row :=
  if n ≤ draws.length then
    if n = 0 then draws else draws.drop (draws.length - n)
  else draws

/-- Embeds `RecentOnlyStrategy(n_items, mode='draws').calculate`: count only the
last `n_items` records (or all of them, when fewer exist). -/
def RecentOnlyStrategy.calculateDraws (n_items : Nat) (draws : List Row) : ScoreMap :=
  counterToScores (countCells (pySliceLast draws n_items))

/-- Models Python `date.split('/')`: split the characters on every slash
(adjacent slashes yield empty fields, the empty string yields one empty
field). -/
def splitOnSlash : List Char → List (List Char)
  | [] => [[]]
  | c :: cs =>
    match splitOnSlash cs with
    | [] => [[c]]
    | g :: gs => if c = '/' then [] :: g :: gs else (c :: g) :: gs

/-- Models `int(date.split('/')[-1])`: the year field of a `Data` cell. -/
def yearOf? (date : String) : Option Int :=
  pyIntChars? ((splitOnSlash date.data).getLastD [])

/-- The years-mode filtering loop of `RecentOnlyStrategy.calculate`: keep the
rows whose nonempty `Data` cell has year ≥ `cutoff`, skip rows with a missing
or empty `Data` cell, and propagate the `ValueError` (`none`) raised by the
first unparseable nonempty date. -/
def filterByYear (cutoff : Int) : List Row → Option (List Row)
  | [] => some []
  | row :: rest =>
    let date := (dictGet? row "Data").getD ""
    if date = "" then filterByYear cutoff rest
    else
      match yearOf? date with
      | none => none
      | some y =>
        match filterByYear cutoff rest with
        | none => none
        | some rs => some (if cutoff ≤ y then row :: rs else rs)

/-- Embeds `RecentOnlyStrategy(n_items, mode='years').calculate`; `none` models the
`ValueError` raised when a nonempty date does not parse. An empty sequence
or an empty/missing date on the last record short-circuits to counting the
whole sequence. -/
def RecentOnlyStrategy.calculateYears (n_items : Int) (draws : List Row) :
    Option ScoreMap :=
  match draws.getLast? with
  | none => some (counterToScores (countCells draws))
  | some last =>
    let mostRecentDate := (dictGet? last "Data").getD ""
    if mostRecentDate = "" then some (counterToScores (countCells draws))
    else
      match yearOf? mostRecentDate with
      | none => none
      | some y =>
        (filterByYear (y - n_items + 1) draws).map
          (fun recent => counterToScores (countCells recent))

/-- Models `weighted_scores[k] += w` on a `defaultdict(float)` modelled as an
association list: an existing key keeps its position, a new key is appended
with initial score `0.0 + w`. -/
noncomputable def scoreAdd (m : ScoreMapR) (k : Int) (w : ℝ) : ScoreMapR :=
  match m with
  | [] => [(k, w)]
  | p :: t => if p.1 = k then (p.1, p.2 + w) :: t else p :: scoreAdd t k w

/-- Embeds `WeightedFrequencyStrategy._calculate_weight`: weight for a normalized
position as a function of the configured mode and decay factor. Any mode
other than the two named ones takes the `else` (`recent_less`) branch. -/
noncomputable def WeightedFrequencyStrategy.calculate_weight
    (weight_mode : String) (decay_factor : ℝ) (position : ℝ) : ℝ :=
  if weight_mode = "recent_more" then
    Real.exp (decay_factor * position) / Real.exp decay_factor
  else if weight_mode = "recent_linear" then
    0.25 + 0.75 * position
  else
    Real.exp (decay_factor * (1 - position)) / Real.exp decay_factor

/-- Models `draw_index / (total_draws - 1) if total_draws > 1 else 0`. -/
noncomputable def drawPosition (total_draws : Nat) (draw_index : Nat) : ℝ :=
  if 1 < total_draws then (draw_index : ℝ) / ((total_draws : ℝ) - 1) else 0

/-- Embeds `WeightedFrequencyStrategy.calculate`: each parsed cell of the draw at
index `i` contributes `_calculate_weight(position i)` to its number. -/
noncomputable def WeightedFrequencyStrategy.calculate
    (weight_mode : String) (decay_factor : ℝ) (draws : List Row) : ScoreMapR :=
  let total_draws := draws.length
  draws.enum.foldl
    (fun acc iRow =>
      let w := WeightedFrequencyStrategy.calculate_weight weight_mode decay_factor
        (drawPosition total_draws iRow.1)
      (extractCells iRow.2).foldl (fun m k => scoreAdd m k w) acc)
    []

/-- Insert `x` into `l`, moving it past exactly the elements whose key is
strictly greater. On a list sorted by descending key this is stable
insertion: an earlier element is never moved past an equal one. -/
def insertDescBy {α : Type} (lt : α → α → Bool) (x : α) : List α → List α
  | [] => [x]
  | y :: ys => if lt x y then y :: insertDescBy lt x ys else x :: y :: ys

/-- Stable descending sort by a strict comparison on keys; models Python
`sorted(l, key=..., reverse=True)`, which is stable and key-descending. -/
def pySortDescBy {α : Type} (lt : α → α → Bool) : List α → List α
  | [] => []
  | x :: xs => insertDescBy lt x (pySortDescBy lt xs)

/-- Strict comparison of the sort key `x[1]` (the score) used by
`get_top_numbers`. -/
def scoreLt (a b : Int × ℚ) : Bool :=
  decide (a.2 < b.2)

/-- Embeds `FrequencyCalculator.get_top_numbers`: sort the score map items by score
descending with Python's stable sort, then take the first `n`. -/
def FrequencyCalculator.get_top_numbers (frequencies : ScoreMap) (n : Nat) :
    ScoreMap :=
  (pySortDescBy scoreLt frequencies).take n

/-- Ascending insertion of an integer (helper for Python `sorted(list)`). -/
def insertAsc (x : Int) : List Int → List Int
  | [] => [x]
  | y :: ys => if y ≤ x then y :: insertAsc x ys else x :: y :: ys

/-- Python `sorted(numbers)`: ascending sort of a list of integers. -/
def pySortAsc : List Int → List Int
  | [] => []
  | x :: xs => insertAsc x (pySortAsc xs)

/-- Models `simple_freq.get(x[0], 0) if simple_freq else 0`: the reference score used as
the secondary consensus sort key. -/
def freqGetD (simple_freq : Option ScoreMap) (k : Int) : ℚ :=
  match simple_freq with
  | none => 0
  | some m => ((m.find? (fun p => p.1 == k)).map (fun p => p.2)).getD 0

/-- Strict comparison of the Python sort key tuple
`(count, reference score)` used by the consensus ranking. -/
def consensusLt (simple_freq : Option ScoreMap) (a b : Int × Nat) : Bool :=
  decide (a.2 < b.2 ∨ (a.2 = b.2 ∧ freqGetD simple_freq a.1 < freqGetD simple_freq b.1))

/-- The value computed and returned by
`ResultFormatter.display_consensus_analysis` (printing elided): union the
strategies' number sets, tally per-number agreement counts, rank by
(count, reference score) descending with Python's stable sort, and return
the first 8 numbers sorted ascending. -/
def ResultFormatter.display_consensus_analysis
    (all_strategies : List (String × List Int)) (simple_freq : Option ScoreMap) :
    List Int :=
  let strategy_sets := all_strategies.map (fun kv => kv.2.dedup)
  let all_numbers := strategy_sets.flatten.dedup
  let number_counts := all_numbers.map
    (fun num => (num, (strategy_sets.filter (fun s => s.contains num)).length))
  let consensus_ranking := pySortDescBy (consensusLt simple_freq) number_counts
  pySortAsc ((consensus_ranking.take 8).map (fun p => p.1))

/-! ## General lemmas about the stable descending sort -/

theorem perm_insertDescBy {α : Type} (lt : α → α → Bool) (x : α) (l : List α) :
    (insertDescBy lt x l).Perm (x :: l) := by
  induction l with
  | nil => exact List.Perm.refl _
  | cons y ys ih =>
    rw [insertDescBy]
    by_cases h : lt x y
    · simp only [h, if_true]
      exact (ih.cons y).trans (List.Perm.swap x y ys)
    · simp only [h, if_false]
      exact List.Perm.refl _

theorem perm_pySortDescBy {α : Type} (lt : α → α → Bool) (l : List α) :
    (pySortDescBy lt l).Perm l := by
  induction l with
  | nil => exact List.Perm.refl _
  | cons x xs ih =>
    rw [pySortDescBy]
    exact (perm_insertDescBy lt x (pySortDescBy lt xs)).trans (ih.cons x)

theorem length_pySortDescBy {α : Type} (lt : α → α → Bool) (l : List α) :
    (pySortDescBy lt l).length = l.length :=
  (perm_pySortDescBy lt l).length_eq

theorem perm_insertAsc (x : Int) (l : List Int) :
    (insertAsc x l).Perm (x :: l) := by
  induction l with
  | nil => exact List.Perm.refl _
  | cons y ys ih =>
    rw [insertAsc]
    by_cases h : y ≤ x
    · simp only [h, if_true]
      exact (ih.cons y).trans (List.Perm.swap x y ys)
    · simp only [h, if_false]
      exact List.Perm.refl _

theorem perm_pySortAsc (l : List Int) : (pySortAsc l).Perm l := by
  induction l with
  | nil => exact List.Perm.refl _
  | cons x xs ih =>
    rw [pySortAsc]
    exact (perm_insertAsc x (pySortAsc xs)).trans (ih.cons x)

theorem sorted_insertAsc (x : Int) (l : List Int) (h : l.Sorted (· ≤ ·)) :
    (insertAsc x l).Sorted (· ≤ ·) := by
  induction l with
  | nil => simp [insertAsc]
  | cons y ys ih =>
    rw [List.sorted_cons] at h
    rw [insertAsc]
    by_cases hyx : y ≤ x
    · simp only [hyx, if_true, List.sorted_cons]
      refine ⟨fun b hb => ?_, ih h.2⟩
      rcases List.mem_cons.mp ((perm_insertAsc x ys).mem_iff.mp hb) with hb | hb
      · exact hb ▸ hyx
      · exact h.1 b hb
    · simp only [hyx, if_false, List.sorted_cons]
      exact ⟨fun b hb => by
        rcases List.mem_cons.mp hb with hb | hb
        · exact hb ▸ le_of_not_le hyx
        · exact le_trans (le_of_not_le hyx) (h.1 b hb), h⟩

theorem sorted_pySortAsc (l : List Int) : (pySortAsc l).Sorted (· ≤ ·) := by
  induction l with
  | nil => simp [pySortAsc]
  | cons x xs ih => exact sorted_insertAsc x (pySortAsc xs) ih

theorem scoreLt_iff (a b : Int × ℚ) : scoreLt a b = true ↔ a.2 < b.2 := by
  simp [scoreLt]

theorem sorted_insertDescBy (x : Int × ℚ) (l : ScoreMap)
    (h : l.Sorted (fun a b => b.2 ≤ a.2)) :
    (insertDescBy scoreLt x l).Sorted (fun a b => b.2 ≤ a.2) := by
  induction l with
  | nil => simp [insertDescBy]
  | cons y ys ih =>
    rw [List.sorted_cons] at h
    rw [insertDescBy]
    by_cases hlt : x.2 < y.2
    · rw [if_pos ((scoreLt_iff x y).mpr hlt)]
      rw [List.sorted_cons]
      refine ⟨fun b hb => ?_, ih h.2⟩
      rcases List.mem_cons.mp ((perm_insertDescBy scoreLt x ys).mem_iff.mp hb) with hb | hb
      · exact hb ▸ le_of_lt hlt
      · exact h.1 b hb
    · rw [if_neg (fun hc => hlt ((scoreLt_iff x y).mp hc))]
      rw [List.sorted_cons]
      have hxy : y.2 ≤ x.2 := le_of_not_lt hlt
      refine ⟨fun b hb => ?_, List.sorted_cons.mpr h⟩
      rcases List.mem_cons.mp hb with hb | hb
      · exact hb ▸ hxy
      · exact le_trans (h.1 b hb) hxy

theorem sorted_pySortDescBy (l : ScoreMap) :
    (pySortDescBy scoreLt l).Sorted (fun a b => b.2 ≤ a.2) := by
  induction l with
  | nil => simp [pySortDescBy]
  | cons x xs ih => exact sorted_insertDescBy x (pySortDescBy scoreLt xs) ih

theorem filter_insertDescBy (q : ℚ) (x : Int × ℚ) (l : ScoreMap) :
    (insertDescBy scoreLt x l).filter (fun p => decide (p.2 = q)) =
      if x.2 = q then x :: l.filter (fun p => decide (p.2 = q))
      else l.filter (fun p => decide (p.2 = q)) := by
  induction l with
  | nil =>
    rw [insertDescBy, List.filter]
    by_cases hx : x.2 = q <;> simp [hx]
  | cons y ys ih =>
    rw [insertDescBy]
    by_cases hlt : x.2 < y.2
    · rw [if_pos ((scoreLt_iff x y).mpr hlt)]
      rw [List.filter_cons, ih]
      by_cases hx : x.2 = q
      · have hy : ¬ y.2 = q := fun hyq => absurd hlt (by rw [hx, hyq]; exact lt_irrefl q)
        simp [hx, hy, List.filter_cons]
      · by_cases hy : y.2 = q <;> simp [hx, hy, List.filter_cons]
    · rw [if_neg (fun hc => hlt ((scoreLt_iff x y).mp hc))]
      by_cases hx : x.2 = q <;> simp [hx, List.filter_cons]

theorem filter_pySortDescBy (q : ℚ) (l : ScoreMap) :
    (pySortDescBy scoreLt l).filter (fun p => decide (p.2 = q)) =
      l.filter (fun p => decide (p.2 = q)) := by
  induction l with
  | nil => rfl
  | cons x xs ih =>
    rw [pySortDescBy, filter_insertDescBy, ih, List.filter_cons]
    by_cases hx : x.2 = q <;> simp [hx]

/-! ## Sum-of-scores bookkeeping for the Simple strategy -/

/-- Sum of the values of a score map (`sum(scores.values())`). -/
def sumScores (m : ScoreMap) : ℚ :=
  (m.map (fun p => p.2)).sum

/-- Sum of the values of a counter. -/
def sumCounts (m : List (Int × Nat)) : Nat :=
  (m.map (fun p => p.2)).sum

/-- Number of ball cells over all rows that parse as an integer. -/
def cellsParsed (draws : List Row) : Nat :=
  (draws.map (fun r => (extractCells r).length)).sum

/-- Number of ball cells over all rows that are missing or unparseable. -/
def cellsMalformed (draws : List Row) : Nat :=
  (draws.map (fun r => 6 - (extractCells r).length)).sum

theorem sumCounts_counterAdd (m : List (Int × Nat)) (k : Int) :
    sumCounts (counterAdd m k) = sumCounts m + 1 := by
  induction m with
  | nil => rfl
  | cons p t ih =>
    rw [counterAdd]
    by_cases h : p.1 = k
    · simp only [h, if_true, sumCounts, List.map_cons, List.sum_cons] at *
      omega
    · simp only [h, if_false, sumCounts, List.map_cons, List.sum_cons] at *
      omega

theorem sumCounts_foldl_counterAdd (cells : List Int) (m : List (Int × Nat)) :
    sumCounts (cells.foldl counterAdd m) = sumCounts m + cells.length := by
  induction cells generalizing m with
  | nil => simp
  | cons c cs ih =>
    rw [List.foldl_cons, ih, sumCounts_counterAdd, List.length_cons]
    omega

theorem sumCounts_foldl_rows (rows : List Row) (m : List (Int × Nat)) :
    sumCounts (rows.foldl (fun acc row => (extractCells row).foldl counterAdd acc) m) =
      sumCounts m + cellsParsed rows := by
  induction rows generalizing m with
  | nil => simp [cellsParsed]
  | cons r rs ih =>
    rw [List.foldl_cons, ih, sumCounts_foldl_counterAdd]
    simp only [cellsParsed, List.map_cons, List.sum_cons]
    omega

theorem sumScores_counterToScores (m : List (Int × Nat)) :
    sumScores (counterToScores m) = (sumCounts m : ℚ) := by
  induction m with
  | nil => rfl
  | cons p t ih =>
    simp only [counterToScores, sumScores, sumCounts, List.map_cons, List.sum_cons] at *
    rw [ih]
    push_cast
    ring

theorem extractCells_length_le (row : Row) : (extractCells row).length ≤ 6 := by
  have h := List.length_filterMap_le (fun col => (dictGet? row col).bind pyInt?) BALL_COLUMNS
  rw [extractCells]
  exact le_trans h (by rw [BALL_COLUMNS]; rfl)

theorem cellsParsed_add_cellsMalformed (draws : List Row) :
    cellsParsed draws + cellsMalformed draws = 6 * draws.length := by
  induction draws with
  | nil => rfl
  | cons r rs ih =>
    have h := extractCells_length_le r
    simp only [cellsParsed, cellsMalformed, List.map_cons, List.sum_cons,
      List.length_cons] at *
    omega

/-! ## Claim theorems (first group) -/

/-- C1: for every list of draw records, the values of the score map returned
by `SimpleFrequencyStrategy.calculate` sum to the number of ball cells that
parse as an integer, and that count plus the number of missing or
unparseable cells is `6 * len(draws)` — so the sum equals
`6 * len(draws)` minus the malformed-cell count. -/
theorem simple_calculate_sum (draws : List Row) :
    sumScores (SimpleFrequencyStrategy.calculate draws) = (cellsParsed draws : ℚ) ∧
    cellsParsed draws + cellsMalformed draws = 6 * draws.length := by
  refine ⟨?_, cellsParsed_add_cellsMalformed draws⟩
  rw [SimpleFrequencyStrategy.calculate, sumScores_counterToScores, countCells,
    sumCounts_foldl_rows]
  norm_num [sumCounts]

/-- C7: `FrequencyCalculator.get_top_numbers` returns a list whose length is
the minimum of `n` and the number of entries of the score map; in particular
an empty map yields an empty list for every `n`. -/
theorem get_top_numbers_length (scores : ScoreMap) (n : Nat) :
    (FrequencyCalculator.get_top_numbers scores n).length = min n scores.length := by
  rw [FrequencyCalculator.get_top_numbers, List.length_take, length_pySortDescBy]

/-- Entries with equal scores always appear in ascending number order. -/
def lowerNumberFirstOnTies (l : ScoreMap) : Prop :=
  l.Pairwise (fun a b => a.2 = b.2 → a.1 < b.1)

/-- C2 counterexample: on the score map with entries `5 ↦ 1` then `3 ↦ 1`
(equal scores), `get_top_numbers` returns `5` before `3`, so the claimed
lower-number-first tie-break fails. -/
theorem get_top_numbers_tie_counterexample :
    FrequencyCalculator.get_top_numbers [((5 : Int), (1 : ℚ)), ((3 : Int), (1 : ℚ))] 2 =
      [((5 : Int), (1 : ℚ)), ((3 : Int), (1 : ℚ))] ∧
    ¬ lowerNumberFirstOnTies
        (FrequencyCalculator.get_top_numbers [((5 : Int), (1 : ℚ)), ((3 : Int), (1 : ℚ))] 2) := by
  constructor
  · rfl
  · simp only [lowerNumberFirstOnTies]
    decide

/-- C2 amended: the ranking returned by `get_top_numbers` is deterministic,
sorted by score descending, and breaks score ties by the score map's own
entry order (Python's stable sort), not by numeric value: the entries of any
given score appear exactly as they do in the input map, and the top-`n` list
is always a prefix of the full ranking. -/
theorem get_top_numbers_deterministic_stable (l : ScoreMap) (q : ℚ) (n : Nat) :
    (FrequencyCalculator.get_top_numbers l l.length).filter (fun p => decide (p.2 = q)) =
      l.filter (fun p => decide (p.2 = q)) ∧
    (FrequencyCalculator.get_top_numbers l l.length).Sorted (fun a b => b.2 ≤ a.2) ∧
    FrequencyCalculator.get_top_numbers l n =
      (FrequencyCalculator.get_top_numbers l l.length).take n := by
  have htake : (pySortDescBy scoreLt l).take l.length = pySortDescBy scoreLt l :=
    List.take_of_length_le (by rw [length_pySortDescBy])
  refine ⟨?_, ?_, ?_⟩
  · rw [FrequencyCalculator.get_top_numbers, htake]
    exact filter_pySortDescBy q l
  · rw [FrequencyCalculator.get_top_numbers, htake]
    exact sorted_pySortDescBy l
  · rw [FrequencyCalculator.get_top_numbers, FrequencyCalculator.get_top_numbers, htake]

/-- C9: draws-mode `RecentOnlyStrategy` with `n_items = 0` counts the whole
sequence (Python `draws[-0:]` is the whole list), exactly like the Simple
strategy — not an empty map. -/
theorem recentDraws_zero_eq_simple (draws : List Row) :
    RecentOnlyStrategy.calculateDraws 0 draws = SimpleFrequencyStrategy.calculate draws := by
  rw [RecentOnlyStrategy.calculateDraws, SimpleFrequencyStrategy.calculate, pySliceLast]
  simp

theorem pySliceLast_of_le (draws : List Row) (n : Nat) (h : draws.length ≤ n) :
    pySliceLast draws n = draws := by
  rw [pySliceLast]
  by_cases h1 : n ≤ draws.length
  · have hn : n = draws.length := le_antisymm h1 h
    by_cases h0 : n = 0
    · simp [h1, h0]
    · simp [h1, h0, hn]
  · simp [h1]

/-- C3: draws-mode `RecentOnlyStrategy` with a window at least as large as
the sequence returns exactly the Simple strategy's score map. -/
theorem recentDraws_window_ge_eq_simple (draws : List Row) (n : Nat)
    (h : draws.length ≤ n) :
    RecentOnlyStrategy.calculateDraws n draws = SimpleFrequencyStrategy.calculate draws := by
  rw [RecentOnlyStrategy.calculateDraws, pySliceLast_of_le draws n h,
    SimpleFrequencyStrategy.calculate]

/-- Witness for C3 at a concrete one-row sequence and window 2. -/
theorem recentDraws_window_ge_eq_simple_witness :
    ([[(("bola 1" : String), ("10" : String))]] : List Row).length ≤ 2 ∧
    RecentOnlyStrategy.calculateDraws 2 [[("bola 1", "10")]] =
      SimpleFrequencyStrategy.calculate [[("bola 1", "10")]] :=
  ⟨by decide, recentDraws_window_ge_eq_simple [[("bola 1", "10")]] 2 (by decide)⟩

/-! ## Weight-function claims -/

/-- C8: in `recent_linear` mode, `_calculate_weight` is exactly the linear
ramp `0.25 + 0.75 * p` on positions in `[0, 1]`, taking the exact values
0.25 at 0, 0.625 at 0.5 and 1.0 at 1, and it is strictly increasing in the
position. -/
theorem calculate_weight_recent_linear (decay p p₁ p₂ : ℝ)
    (hp0 : 0 ≤ p) (hp1 : p ≤ 1) (h1 : 0 ≤ p₁) (h12 : p₁ < p₂) (h2 : p₂ ≤ 1) :
    WeightedFrequencyStrategy.calculate_weight "recent_linear" decay p = 0.25 + 0.75 * p ∧
    WeightedFrequencyStrategy.calculate_weight "recent_linear" decay 0 = 0.25 ∧
    WeightedFrequencyStrategy.calculate_weight "recent_linear" decay 0.5 = 0.625 ∧
    WeightedFrequencyStrategy.calculate_weight "recent_linear" decay 1 = 1 ∧
    WeightedFrequencyStrategy.calculate_weight "recent_linear" decay p₁ <
      WeightedFrequencyStrategy.calculate_weight "recent_linear" decay p₂ := by
  have hmode : ∀ x : ℝ,
      WeightedFrequencyStrategy.calculate_weight "recent_linear" decay x
        = 0.25 + 0.75 * x := by
    intro x
    rw [WeightedFrequencyStrategy.calculate_weight, if_neg (by decide), if_pos rfl]
  refine ⟨hmode p, ?_, ?_, ?_, ?_⟩
  · rw [hmode]; norm_num
  · rw [hmode]; norm_num
  · rw [hmode]; norm_num
  · rw [hmode, hmode]
    have h075 : (0 : ℝ) < 0.75 := by norm_num
    nlinarith [mul_lt_mul_of_pos_left h12 h075]

/-- Witness for C8 at decay 2 and positions 0.5, 0 and 1. -/
theorem calculate_weight_recent_linear_witness :
    WeightedFrequencyStrategy.calculate_weight "recent_linear" 2 0.5 = 0.625 ∧
    WeightedFrequencyStrategy.calculate_weight "recent_linear" 2 0 <
      WeightedFrequencyStrategy.calculate_weight "recent_linear" 2 1 :=
  ⟨(calculate_weight_recent_linear 2 0.5 0 1 (by norm_num) (by norm_num) (by norm_num)
      (by norm_num) (by norm_num)).2.2.1,
    (calculate_weight_recent_linear 2 0.5 0 1 (by norm_num) (by norm_num) (by norm_num)
      (by norm_num) (by norm_num)).2.2.2.2⟩

/-- C10: every weight mode other than `recent_more` and `recent_linear`
falls through to the `else` branch of `_calculate_weight` and returns the
`recent_less` value `exp(decay * (1 - p)) / exp(decay)`. -/
theorem calculate_weight_default_mode (mode : String) (decay p : ℝ)
    (h1 : mode ≠ "recent_more") (h2 : mode ≠ "recent_linear") :
    WeightedFrequencyStrategy.calculate_weight mode decay p =
      Real.exp (decay * (1 - p)) / Real.exp decay := by
  rw [WeightedFrequencyStrategy.calculate_weight, if_neg h1, if_neg h2]

/-- Witness for C10 at the unrecognised mode string "foo". -/
theorem calculate_weight_default_mode_witness :
    WeightedFrequencyStrategy.calculate_weight "foo" 2 0.5 =
      Real.exp (2 * (1 - 0.5)) / Real.exp 2 :=
  calculate_weight_default_mode "foo" 2 0.5 (by decide) (by decide)

/-! ## Years-mode edge cases -/

/-- C5 counterexample: on a single record whose `Data` cell is the nonempty
unparseable string "abc", years mode propagates the parse error (`none`)
instead of falling back to the whole-sequence count, which would be the
(non-`none`) Simple result `{10: 1.0}`. -/
theorem recentYears_unparseable_counterexample :
    RecentOnlyStrategy.calculateYears 1 [[("Data", "abc"), ("bola 1", "10")]] = none ∧
    SimpleFrequencyStrategy.calculate [[("Data", "abc"), ("bola 1", "10")]] =
      [((10 : Int), (1 : ℚ))] := by
  constructor <;> rfl

/-- C5 amended: years mode on an empty sequence returns an empty map, and
when the last record's `Data` cell is missing or empty it falls back to
counting the entire sequence; but when that cell is present, nonempty and
unparseable, the computation raises (`none`) rather than falling back. -/
theorem recentYears_edge_cases (n : Int) (draws : List Row) (last : Row) :
    RecentOnlyStrategy.calculateYears n [] = some [] ∧
    (draws.getLast? = some last → (dictGet? last "Data").getD "" = "" →
      RecentOnlyStrategy.calculateYears n draws =
        some (SimpleFrequencyStrategy.calculate draws)) ∧
    (draws.getLast? = some last → (dictGet? last "Data").getD "" ≠ "" →
      yearOf? ((dictGet? last "Data").getD "") = none →
      RecentOnlyStrategy.calculateYears n draws = none) := by
  refine ⟨rfl, ?_, ?_⟩
  · intro hlast hdate
    rw [RecentOnlyStrategy.calculateYears, hlast]
    simp only [hdate, if_pos]
    rfl
  · intro hlast hdate hyear
    rw [RecentOnlyStrategy.calculateYears, hlast]
    simp only [if_neg hdate, hyear]

/-- Witness for C5 on an empty sequence, a record with no `Data` cell, and a
record with the unparseable date "xx". -/
theorem recentYears_edge_cases_witness :
    RecentOnlyStrategy.calculateYears 3 [] = some [] ∧
    RecentOnlyStrategy.calculateYears 3 [[("bola 1", "10")]] =
      some (SimpleFrequencyStrategy.calculate [[("bola 1", "10")]]) ∧
    RecentOnlyStrategy.calculateYears 3 [[("Data", "xx"), ("bola 1", "10")]] = none :=
  ⟨(recentYears_edge_cases 3 [] []).1,
    (recentYears_edge_cases 3 [[("bola 1", "10")]] [("bola 1", "10")]).2.1 rfl (by decide),
    (recentYears_edge_cases 3 [[("Data", "xx"), ("bola 1", "10")]]
      [("Data", "xx"), ("bola 1", "10")]).2.2 rfl (by decide) (by decide)⟩

/-! ## Score map invariants -/

theorem mem_counterAdd {m : List (Int × Nat)} {k : Int} {P : Int → Prop}
    (hm : ∀ p ∈ m, P p.1) (hk : P k) : ∀ p ∈ counterAdd m k, P p.1 := by
  induction m with
  | nil =>
    intro p hp
    rw [counterAdd, List.mem_singleton] at hp
    rw [hp]
    exact hk
  | cons q t ih =>
    intro p hp
    rw [counterAdd] at hp
    by_cases h : q.1 = k
    · rw [if_pos h] at hp
      rcases List.mem_cons.mp hp with hp | hp
      · rw [hp]
        exact hm q (List.mem_cons_self q t)
      · exact hm p (List.mem_cons_of_mem q hp)
    · rw [if_neg h] at hp
      rcases List.mem_cons.mp hp with hp | hp
      · rw [hp]
        exact hm q (List.mem_cons_self q t)
      · exact ih (fun r hr => hm r (List.mem_cons_of_mem q hr)) p hp

theorem mem_foldl_counterAdd {cells : List Int} {m : List (Int × Nat)} {P : Int → Prop}
    (hm : ∀ p ∈ m, P p.1) (hc : ∀ x ∈ cells, P x) :
    ∀ p ∈ cells.foldl counterAdd m, P p.1 := by
  induction cells generalizing m with
  | nil => exact hm
  | cons c cs ih =>
    rw [List.foldl_cons]
    exact ih (mem_counterAdd hm (hc c (List.mem_cons_self c cs)))
      (fun x hx => hc x (List.mem_cons_of_mem c hx))

theorem mem_foldl_rows {rows : List Row} {m : List (Int × Nat)} {P : Int → Prop}
    (hm : ∀ p ∈ m, P p.1) (h : ∀ r ∈ rows, ∀ x ∈ extractCells r, P x) :
    ∀ p ∈ rows.foldl (fun acc row => (extractCells row).foldl counterAdd acc) m, P p.1 := by
  induction rows generalizing m with
  | nil => exact hm
  | cons r rs ih =>
    rw [List.foldl_cons]
    exact ih (mem_foldl_counterAdd hm (h r (List.mem_cons_self r rs)))
      (fun r' hr' => h r' (List.mem_cons_of_mem r hr'))

theorem mem_counterToScores {m : List (Int × Nat)} {P : Int → Prop}
    (hm : ∀ p ∈ m, P p.1) : ∀ p ∈ counterToScores m, P p.1 ∧ 0 ≤ p.2 := by
  intro p hp
  rw [counterToScores, List.mem_map] at hp
  obtain ⟨q, hq, rfl⟩ := hp
  exact ⟨hm q hq, Nat.cast_nonneg q.2⟩

theorem pySliceLast_subset (draws : List Row) (n : Nat) :
    ∀ r ∈ pySliceLast draws n, r ∈ draws := by
  intro r hr
  rw [pySliceLast] at hr
  by_cases h1 : n ≤ draws.length
  · rw [if_pos h1] at hr
    by_cases h0 : n = 0
    · rw [if_pos h0] at hr
      exact hr
    · rw [if_neg h0] at hr
      exact List.mem_of_mem_drop hr
  · rw [if_neg h1] at hr
    exact hr

theorem mem_scoreAdd {m : ScoreMapR} {k : Int} {w : ℝ} {P : Int → Prop}
    (hm : ∀ p ∈ m, P p.1 ∧ 0 ≤ p.2) (hk : P k) (hw : 0 ≤ w) :
    ∀ p ∈ scoreAdd m k w, P p.1 ∧ 0 ≤ p.2 := by
  induction m with
  | nil =>
    intro p hp
    rw [scoreAdd, List.mem_singleton] at hp
    rw [hp]
    exact ⟨hk, hw⟩
  | cons q t ih =>
    intro p hp
    rw [scoreAdd] at hp
    by_cases h : q.1 = k
    · rw [if_pos h] at hp
      rcases List.mem_cons.mp hp with hp | hp
      · rw [hp]
        exact ⟨(hm q (List.mem_cons_self q t)).1,
          add_nonneg (hm q (List.mem_cons_self q t)).2 hw⟩
      · exact hm p (List.mem_cons_of_mem q hp)
    · rw [if_neg h] at hp
      rcases List.mem_cons.mp hp with hp | hp
      · rw [hp]
        exact hm q (List.mem_cons_self q t)
      · exact ih (fun r hr => hm r (List.mem_cons_of_mem q hr)) p hp

theorem mem_foldl_scoreAdd {cells : List Int} {w : ℝ} {m : ScoreMapR} {P : Int → Prop}
    (hm : ∀ p ∈ m, P p.1 ∧ 0 ≤ p.2) (hc : ∀ x ∈ cells, P x) (hw : 0 ≤ w) :
    ∀ p ∈ cells.foldl (fun acc k => scoreAdd acc k w) m, P p.1 ∧ 0 ≤ p.2 := by
  induction cells generalizing m with
  | nil => exact hm
  | cons c cs ih =>
    rw [List.foldl_cons]
    exact ih (mem_scoreAdd hm (hc c (List.mem_cons_self c cs)) hw)
      (fun x hx => hc x (List.mem_cons_of_mem c hx))

theorem drawPosition_nonneg (total_draws draw_index : Nat) :
    0 ≤ drawPosition total_draws draw_index := by
  rw [drawPosition]
  by_cases h : 1 < total_draws
  · rw [if_pos h]
    apply div_nonneg (Nat.cast_nonneg draw_index)
    have h1 : (1 : ℝ) ≤ (total_draws : ℝ) := by exact_mod_cast h.le
    linarith
  · rw [if_neg h]

theorem calculate_weight_nonneg (mode : String) (decay : ℝ) {p : ℝ} (hp : 0 ≤ p) :
    0 ≤ WeightedFrequencyStrategy.calculate_weight mode decay p := by
  rw [WeightedFrequencyStrategy.calculate_weight]
  by_cases h1 : mode = "recent_more"
  · rw [if_pos h1]
    positivity
  · rw [if_neg h1]
    by_cases h2 : mode = "recent_linear"
    · rw [if_pos h2]
      nlinarith [hp]
    · rw [if_neg h2]
      positivity

theorem mem_foldl_weighted {l : List (Nat × Row)} {m : ScoreMapR} {P : Int → Prop}
    (mode : String) (decay : ℝ) (total : Nat)
    (hm : ∀ p ∈ m, P p.1 ∧ 0 ≤ p.2)
    (h : ∀ ir ∈ l, ∀ x ∈ extractCells ir.2, P x) :
    ∀ p ∈ l.foldl
      (fun acc iRow =>
        let w := WeightedFrequencyStrategy.calculate_weight mode decay
          (drawPosition total iRow.1)
        (extractCells iRow.2).foldl (fun m k => scoreAdd m k w) acc) m,
      P p.1 ∧ 0 ≤ p.2 := by
  induction l generalizing m with
  | nil => exact hm
  | cons ir irs ih =>
    rw [List.foldl_cons]
    refine ih (mem_foldl_scoreAdd hm (h ir (List.mem_cons_self ir irs)) ?_)
      (fun jr hjr => h jr (List.mem_cons_of_mem ir hjr))
    exact calculate_weight_nonneg mode decay (drawPosition_nonneg total ir.1)

/-- C6: for every draw sequence whose parseable ball cells all lie in
`[1, 60]`, each of the three strategies (Simple; Weighted in any mode with
any decay factor; Recent-only in draws mode with any window) returns a score
map whose keys all lie in `[1, 60]` and whose values are all non-negative. -/
theorem scoremap_invariants (draws : List Row) (mode : String) (decay : ℝ) (n : Nat)
    (h : ∀ r ∈ draws, ∀ x ∈ extractCells r, 1 ≤ x ∧ x ≤ 60) :
    (∀ p ∈ SimpleFrequencyStrategy.calculate draws, (1 ≤ p.1 ∧ p.1 ≤ 60) ∧ 0 ≤ p.2) ∧
    (∀ p ∈ WeightedFrequencyStrategy.calculate mode decay draws,
      (1 ≤ p.1 ∧ p.1 ≤ 60) ∧ 0 ≤ p.2) ∧
    (∀ p ∈ RecentOnlyStrategy.calculateDraws n draws, (1 ≤ p.1 ∧ p.1 ≤ 60) ∧ 0 ≤ p.2) := by
  refine ⟨?_, ?_, ?_⟩
  · exact mem_counterToScores
      (mem_foldl_rows (fun p hp => absurd hp (List.not_mem_nil p)) h)
  · intro p hp
    simp only [WeightedFrequencyStrategy.calculate] at hp
    have hrows : ∀ ir ∈ draws.enum, ∀ x ∈ extractCells ir.2, 1 ≤ x ∧ x ≤ 60 := by
      intro ir hir
      have hmem := List.mem_enum hir
      exact h ir.2 (hmem.2 ▸ List.getElem_mem hmem.1)
    exact mem_foldl_weighted mode decay draws.length
      (fun q hq => absurd hq (List.not_mem_nil q)) hrows p hp
  · intro p hp
    simp only [RecentOnlyStrategy.calculateDraws, countCells] at hp
    have hrows : ∀ r ∈ pySliceLast draws n, ∀ x ∈ extractCells r, 1 ≤ x ∧ x ≤ 60 :=
      fun r hr => h r (pySliceLast_subset draws n r hr)
    exact mem_counterToScores
      (mem_foldl_rows (fun q hq => absurd hq (List.not_mem_nil q)) hrows) p hp

/-- Witness for C6 at a concrete one-row sequence, mode `recent_more`,
decay 2 and window 1. -/
theorem scoremap_invariants_witness :
    (∀ r ∈ ([[("bola 1", "10"), ("bola 2", "x")]] : List Row),
      ∀ x ∈ extractCells r, 1 ≤ x ∧ x ≤ 60) ∧
    ((∀ p ∈ SimpleFrequencyStrategy.calculate [[("bola 1", "10"), ("bola 2", "x")]],
        (1 ≤ p.1 ∧ p.1 ≤ 60) ∧ 0 ≤ p.2) ∧
      (∀ p ∈ WeightedFrequencyStrategy.calculate "recent_more" 2
          [[("bola 1", "10"), ("bola 2", "x")]],
        (1 ≤ p.1 ∧ p.1 ≤ 60) ∧ 0 ≤ p.2) ∧
      (∀ p ∈ RecentOnlyStrategy.calculateDraws 1 [[("bola 1", "10"), ("bola 2", "x")]],
        (1 ≤ p.1 ∧ p.1 ≤ 60) ∧ 0 ≤ p.2)) :=
  ⟨by decide,
    scoremap_invariants [[("bola 1", "10"), ("bola 2", "x")]] "recent_more" 2 1 (by decide)⟩

/-! ## Consensus with a single strategy -/

/-- C4: when `display_consensus_analysis` receives exactly one strategy's
top-N list of distinct numbers with N ≤ 8, the final bet it returns is that
list sorted ascending — a sorted permutation of the strategy's own numbers
of the same length N ≤ 8 — whatever reference score map is supplied. -/
theorem consensus_single_strategy (name : String) (nums : List Int)
    (simple_freq : Option ScoreMap) (hnd : nums.Nodup) (hlen : nums.length ≤ 8) :
    ResultFormatter.display_consensus_analysis [(name, nums)] simple_freq
      = pySortAsc nums ∧
    (ResultFormatter.display_consensus_analysis [(name, nums)] simple_freq).Perm nums ∧
    (ResultFormatter.display_consensus_analysis [(name, nums)] simple_freq).Sorted (· ≤ ·) ∧
    (ResultFormatter.display_consensus_analysis [(name, nums)] simple_freq).length
      = nums.length := by
  have hdef : ResultFormatter.display_consensus_analysis [(name, nums)] simple_freq
      = pySortAsc (((pySortDescBy (consensusLt simple_freq)
          (nums.map (fun num => (num, (([nums] : List (List Int)).filter
            (fun s => s.contains num)).length)))).take 8).map (fun p => p.1)) := by
    simp only [ResultFormatter.display_consensus_analysis, List.map_cons, List.map_nil,
      hnd.dedup, List.flatten_cons, List.flatten_nil, List.append_nil]
  have hperm : (pySortDescBy (consensusLt simple_freq)
      (nums.map (fun num => (num, (([nums] : List (List Int)).filter
        (fun s => s.contains num)).length)))).Perm
      (nums.map (fun num => (num, (([nums] : List (List Int)).filter
        (fun s => s.contains num)).length))) :=
    perm_pySortDescBy _ _
  have htake : (pySortDescBy (consensusLt simple_freq)
      (nums.map (fun num => (num, (([nums] : List (List Int)).filter
        (fun s => s.contains num)).length)))).take 8
      = pySortDescBy (consensusLt simple_freq)
        (nums.map (fun num => (num, (([nums] : List (List Int)).filter
          (fun s => s.contains num)).length))) := by
    refine List.take_of_length_le ?_
    rw [hperm.length_eq, List.length_map]
    exact hlen
  have hmap : ((pySortDescBy (consensusLt simple_freq)
      (nums.map (fun num => (num, (([nums] : List (List Int)).filter
        (fun s => s.contains num)).length)))).map (fun p => p.1)).Perm nums := by
    have h1 := hperm.map (fun p : Int × Nat => p.1)
    have h2 : (nums.map (fun num => (num, (([nums] : List (List Int)).filter
        (fun s => s.contains num)).length))).map (fun p : Int × Nat => p.1) = nums := by
      rw [List.map_map]
      exact List.map_id nums
    rwa [h2] at h1
  have hfinal : (ResultFormatter.display_consensus_analysis [(name, nums)]
      simple_freq).Perm nums := by
    rw [hdef, htake]
    exact (perm_pySortAsc _).trans hmap
  have hsorted : (ResultFormatter.display_consensus_analysis [(name, nums)]
      simple_freq).Sorted (· ≤ ·) := by
    rw [hdef]
    exact sorted_pySortAsc _
  refine ⟨?_, hfinal, hsorted, hfinal.length_eq⟩
  exact List.eq_of_perm_of_sorted (hfinal.trans (perm_pySortAsc nums).symm) hsorted
    (sorted_pySortAsc nums)

/-- Witness for C4 at the single strategy list `[9, 3, 5]` with no reference
score map. -/
theorem consensus_single_strategy_witness :
    ([9, 3, 5] : List Int).Nodup ∧ ([9, 3, 5] : List Int).length ≤ 8 ∧
    ResultFormatter.display_consensus_analysis [("s", [9, 3, 5])] none
      = pySortAsc [9, 3, 5] ∧
    (ResultFormatter.display_consensus_analysis [("s", [9, 3, 5])] none).length = 3 :=
  ⟨by decide, by decide,
    (consensus_single_strategy "s" [9, 3, 5] none (by decide) (by decide)).1,
    (consensus_single_strategy "s" [9, 3, 5] none (by decide) (by decide)).2.2.2⟩

end MegaSena
